import Mathlib

/-!
Verification of the XLA GPU parallel loop emitter
(`tensorflow/compiler/xla/service/gpu/parallel_loop_emitter.cc`).

The emitter, given a tensor `Shape`, `LaunchDimensions` (3-D block counts and
3-D thread counts per block) and an unroll factor `U`, generates GPU code in
which each hardware thread computes `linear_index_base` from its block and
thread ids, produces one logical index per unroll slot, and consumes them
inside a bounds guard; when one hardware wave does not cover all elements,
`EmitLoop` wraps the wave in a counted loop over base offsets.

This file gives a shallow embedding of that index computation: the emitted
code's runtime behaviour is modelled as pure functions from the configuration
and the (block id, thread id) of each hardware thread to the list of logical
indices that reach the per-element body, in emission/execution order.
-/

/-- A 3-D extent, mirroring `LaunchDimensions::Dim3D` (x, y, z components). -/
structure Dim3D where
  x : Nat
  y : Nat
  z : Nat
deriving DecidableEq

/-- The launch geometry: 3-D block counts and 3-D thread counts per block,
mirroring `LaunchDimensions` as used by the emitter. -/
structure LaunchDimensions where
  block_counts : Dim3D
  thread_counts_per_block : Dim3D
deriving DecidableEq

/-- Modelled from the spec: `LaunchDimensions::launch_bound()` is not part of
the excerpted source; per the spec it is the total thread count across all
groups, where "only the x-axis is used by this component; y/z reserved". -/
def LaunchDimensions.launch_bound (ld : LaunchDimensions) : Nat :=
  ld.block_counts.x * ld.thread_counts_per_block.x

/-- A tensor shape: ordered dimension sizes plus an optional layout given as
the minor-to-major dimension ordering (entry 0 is the fastest-varying
dimension's number), mirroring `xla::Shape` as used by the emitter. -/
structure Shape where
  dimensions : List Nat
  minor_to_major : Option (List Nat)
deriving DecidableEq

/-- `Shape::rank()`: the number of dimensions. -/
def Shape.rank (s : Shape) : Nat := s.dimensions.length

/-- `Shape::has_layout()`. -/
def Shape.has_layout (s : Shape) : Bool := s.minor_to_major.isSome

/-- `ShapeUtil::ElementsIn`: total element count = product of the dimension
sizes. -/
def elementsIn (s : Shape) : Nat := s.dimensions.prod

/-- The layout used for delinearization: the shape's `minor_to_major` list, or
the default descending order (row-major: last dimension fastest-varying) when
the shape carries no explicit layout. -/
def layoutOrDefault (s : Shape) : List Nat :=
  s.minor_to_major.getD (List.range s.rank).reverse

/-- The stride (in elements) of the `j`-th minor dimension: the product of the
sizes of all strictly more-minor dimensions. -/
def dimStride (s : Shape) (m2m : List Nat) (j : Nat) : Nat :=
  ((m2m.take j).map (fun k => s.dimensions.getD k 1)).prod

/-- Modelled from the spec: the shape/layout utility's standard
linear-to-multidimensional decomposition (`IrArray::Index(linear, shape, b)`
delinearization, not part of the excerpted source). The coordinate of
dimension `d` is the linear offset divided by the combined size of all
dimensions more minor than `d`, reduced modulo the size of `d`. -/
def delinearizeCoord (s : Shape) (lin : Nat) (d : Nat) : Nat :=
  let m2m := layoutOrDefault s
  (lin / dimStride s m2m (m2m.indexOf d)) % s.dimensions.getD d 1

/-- The full multidimensional coordinate vector of a linear offset. -/
def delinearize (s : Shape) (lin : Nat) : List Nat :=
  (List.range s.rank).map (delinearizeCoord s lin)

/-- One logical index handed to the per-element body: the linear offset
together with the multidimensional coordinate vector
(`llvm_ir::IrArray::Index`). -/
structure LogicalIndex where
  linear : Nat
  multidim : List Nat
deriving DecidableEq

/-- `linear_index_base` as computed in `EmitIndexAndSetExitBasicBlock`
(source lines 94-131): `block_id * thread_counts_per_block.x + thread_id`,
multiplied by the unroll factor when it exceeds 1, then incremented by the
caller-supplied base offset when one is present.  The NUW/NSW flags on the
emitted arithmetic are attributes of the generated IR and are not modelled;
the arithmetic itself is exact on `Nat`. -/
def linear_index_base (ld : LaunchDimensions) (U : Nat) (base_index : Option Nat)
    (block_id thread_id : Nat) : Nat :=
  let lib := block_id * ld.thread_counts_per_block.x + thread_id
  let lib := if U > 1 then lib * U else lib
  match base_index with
  | none => lib
  | some b => lib + b

/-- `enable_row_index` (source lines 137-141): the row-index fast path is
taken exactly when the rank exceeds 1, the unroll factor exceeds 1, the shape
has an explicit layout whose entry at position `rank - 1` (the major-most
position) is dimension 0, and
`thread_counts.x * thread_counts.y * thread_counts.z * U` equals the size of
the last dimension.  The out-of-range default for the layout lookup is
`s.rank`, which never compares equal to 0 when the rank-greater-than-1
conjunct holds, mirroring the C++ precondition that a present layout has
exactly `rank` entries. -/
def enable_row_index (s : Shape) (ld : LaunchDimensions) (U : Nat) : Bool :=
  let dim3 := ld.thread_counts_per_block
  decide (s.rank > 1) && decide (U > 1) && s.has_layout &&
    decide ((layoutOrDefault s).getD (s.rank - 1) s.rank = 0) &&
    decide (dim3.x * dim3.y * dim3.z * U = (s.dimensions.getLast?).getD 0)

/-- One logical index of a wave (source lines 144-170), parameterized by the
row-index flag as computed by `enable_row_index`.  In both branches the linear
component is `lib + i`; in the row branch the coordinate vector is the generic
delinearization with the last dimension's coordinate overridden by the
directly computed `thread_id * U + i` (the `IrArray::Index` constructor taking
a partial multidim vector, modelled from the spec, derives the `nullptr` axes
from the linear offset and keeps the supplied ones). -/
def mkWaveIndex (s : Shape) (U thread_id : Nat) (row : Bool) (lib i : Nat) :
    LogicalIndex :=
  if row then
    { linear := lib + i,
      multidim := (delinearize s (lib + i)).set (s.rank - 1) (thread_id * U + i) }
  else
    { linear := lib + i, multidim := delinearize s (lib + i) }

/-- The ordered list of logical indices one hardware thread produces in one
wave (source lines 144-171): slot 0 first, then slots `1 .. U-1` from the
unroll loop, with the row-index flag passed in explicitly. -/
def waveIndicesWithFlag (s : Shape) (ld : LaunchDimensions) (U : Nat)
    (base_index : Option Nat) (block_id thread_id : Nat) (row : Bool) :
    List LogicalIndex :=
  let lib := linear_index_base ld U base_index block_id thread_id
  mkWaveIndex s U thread_id row lib 0 ::
    (List.range (U - 1)).map (fun j => mkWaveIndex s U thread_id row lib (j + 1))

/-- `ParallelLoopEmitter::EmitIndexAndSetExitBasicBlock` (source lines
60-187): the indices produced for one thread's wave, with the row-index flag
computed by `enable_row_index`. -/
def EmitIndexAndSetExitBasicBlock (s : Shape) (ld : LaunchDimensions) (U : Nat)
    (base_index : Option Nat) (block_id thread_id : Nat) : List LogicalIndex :=
  waveIndicesWithFlag s ld U base_index block_id thread_id (enable_row_index s ld U)

/-- The indices of one thread's wave that actually reach the per-element body
at runtime: the emitted guard (source lines 173-177) admits the wave's
indices only when `linear_index_base < ElementsIn(shape)`; otherwise the
guarded region is skipped and nothing is consumed. -/
def guardedWaveIndices (s : Shape) (ld : LaunchDimensions) (U : Nat)
    (base_index : Option Nat) (block_id thread_id : Nat) : List LogicalIndex :=
  if linear_index_base ld U base_index block_id thread_id < elementsIn s then
    EmitIndexAndSetExitBasicBlock s ld U base_index block_id thread_id
  else []

/-- Ceiling division on naturals. -/
def cdiv (a b : Nat) : Nat := (a + b - 1) / b

/-- The base offsets of the waves `EmitLoop` emits (source lines 189-217):
when `launch_bound * U >= ElementsIn(shape)` a single direct wave with no
caller-supplied base offset (the `LoopEmitter::EmitLoop` fallback); otherwise
one wave per iteration of the counted loop
`for (base = 0; base < num_elements; base += launch_bound * U)`, the loop
iteration semantics of `KernelSupportLibrary::ForWithStatus` being modelled
from the spec ("iterates base from 0 to total_element_count in steps of
launch_bound * U"). -/
def emitLoopWaveOffsets (s : Shape) (ld : LaunchDimensions) (U : Nat) :
    List (Option Nat) :=
  let total_threads := ld.launch_bound
  let num_elements := elementsIn s
  if total_threads * U ≥ num_elements then [none]
  else
    (List.range (cdiv num_elements (total_threads * U))).map
      (fun k => some (k * (total_threads * U)))

/-- All logical indices the emitted program hands to the per-element body, in
order: waves in base-offset order, blocks in ascending `blockIdx.x`, threads
in ascending `threadIdx.x` (the platform guarantees
`0 <= blockIdx.x < block_counts.x` and
`0 <= threadIdx.x < thread_counts_per_block.x`; only the x-axis ids are read
by this component), and within one thread's wave the unroll slots in order,
filtered by the bounds guard. -/
def emitLoopFeed (s : Shape) (ld : LaunchDimensions) (U : Nat) :
    List LogicalIndex :=
  (emitLoopWaveOffsets s ld U).flatMap (fun b =>
    (List.range ld.block_counts.x).flatMap (fun blk =>
      (List.range ld.thread_counts_per_block.x).flatMap (fun tid =>
        guardedWaveIndices s ld U b blk tid)))

/-- The linear components of all indices handed to the body, in feed order. -/
def allFedLinears (s : Shape) (ld : LaunchDimensions) (U : Nat) : List Nat :=
  (emitLoopFeed s ld U).map (fun ix => ix.linear)

/-- Modelled from the spec: feeding the produced indices to the body callback
with fail-fast propagation (`TF_RETURN_IF_ERROR` in `EmitLoop`, lines
208-217, and the `LoopEmitter::EmitLoop` fallback, not part of the excerpted
source).  Returns the list of indices actually handed to the body together
with the outcome: on the first failure the failing index is the last one fed
and the same error is returned unchanged. -/
def runBody {ε : Type} (body : LogicalIndex → Except ε Unit) :
    List LogicalIndex → List LogicalIndex × Except ε Unit
  | [] => ([], Except.ok ())
  | x :: xs =>
    match body x with
    | Except.error e => ([x], Except.error e)
    | Except.ok _ =>
      let r := runBody body xs
      (x :: r.1, r.2)

/-- `ParallelLoopEmitter::EmitLoop` (source lines 189-225), as the pair of
(indices fed to the body, final status). -/
def EmitLoop {ε : Type} (s : Shape) (ld : LaunchDimensions) (U : Nat)
    (body : LogicalIndex → Except ε Unit) : List LogicalIndex × Except ε Unit :=
  runBody body (emitLoopFeed s ld U)

/-- The spec's row-index fast-path enablement condition, stated in the spec's
own words (a second definition, to be compared with `enable_row_index` from
the source): rank greater than 1, unroll factor greater than 1, an explicit
layout whose fastest-varying dimension is the shape's last dimension, and
`threads.x * threads.y * threads.z * U` equal to the last dimension's size. -/
def specRowIndexCond (s : Shape) (ld : LaunchDimensions) (U : Nat) : Prop :=
  1 < s.rank ∧ 1 < U ∧ s.minor_to_major.isSome = true ∧
    (s.minor_to_major.getD []).head? = some (s.rank - 1) ∧
    ld.thread_counts_per_block.x * ld.thread_counts_per_block.y *
        ld.thread_counts_per_block.z * U = (s.dimensions.getLast?).getD 0

instance (s : Shape) (ld : LaunchDimensions) (U : Nat) :
    Decidable (specRowIndexCond s ld U) := by
  unfold specRowIndexCond
  exact inferInstance

/-! ### Basic lemmas about one wave -/

theorem mkWaveIndex_linear (s : Shape) (U tid : Nat) (row : Bool) (lib i : Nat) :
    (mkWaveIndex s U tid row lib i).linear = lib + i := by
  cases row <;> rfl

theorem linear_index_base_eq (ld : LaunchDimensions) (U : Nat) (base : Option Nat)
    (blk tid : Nat) (hU : 1 ≤ U) :
    linear_index_base ld U base blk tid
      = (blk * ld.thread_counts_per_block.x + tid) * U + base.getD 0 := by
  have hcase : U = 1 ∨ 1 < U := by omega
  rcases hcase with rfl | h
  · cases base <;> simp [linear_index_base]
  · cases base <;> simp [linear_index_base, h]

theorem waveIndicesWithFlag_eq_map (s : Shape) (ld : LaunchDimensions) (U : Nat)
    (base : Option Nat) (blk tid : Nat) (row : Bool) (hU : 1 ≤ U) :
    waveIndicesWithFlag s ld U base blk tid row
      = (List.range U).map
          (mkWaveIndex s U tid row (linear_index_base ld U base blk tid)) := by
  obtain ⟨u, rfl⟩ : ∃ u, U = u + 1 := ⟨U - 1, by omega⟩
  unfold waveIndicesWithFlag
  rw [List.range_succ_eq_map]
  simp [List.map_map, Function.comp]

theorem waveIndicesWithFlag_map_linear (s : Shape) (ld : LaunchDimensions) (U : Nat)
    (base : Option Nat) (blk tid : Nat) (row : Bool) (hU : 1 ≤ U) :
    (waveIndicesWithFlag s ld U base blk tid row).map (fun ix => ix.linear)
      = (List.range U).map
          (fun i => linear_index_base ld U base blk tid + i) := by
  rw [waveIndicesWithFlag_eq_map s ld U base blk tid row hU, List.map_map]
  exact List.map_congr_left (fun i _ => mkWaveIndex_linear s U tid row _ i)

/-! ### Range and flatMap machinery for the coverage proof -/

theorem flatMap_range_mul {α : Type} (f : Nat → List α) (a b : Nat) :
    (List.range (a * b)).flatMap f
      = (List.range a).flatMap
          (fun k => (List.range b).flatMap (fun j => f (k * b + j))) := by
  induction a with
  | zero => simp
  | succ n ih =>
    rw [Nat.succ_mul, List.range_add, List.flatMap_append, ih, List.range_succ,
      List.flatMap_append, List.flatMap_map]
    simp

theorem flatMap_range_truncate {α : Type} (f : Nat → List α) (c a : Nat)
    (hca : c ≤ a) (h : ∀ m, c ≤ m → f m = []) :
    (List.range a).flatMap f = (List.range c).flatMap f := by
  obtain ⟨d, rfl⟩ : ∃ d, a = c + d := ⟨a - c, by omega⟩
  rw [List.range_add, List.flatMap_append, List.flatMap_map]
  have hnil : (List.range d).flatMap (fun x => f (c + x)) = [] :=
    List.flatMap_eq_nil_iff.mpr (fun x _ => h _ (Nat.le_add_right c x))
  rw [hnil, List.append_nil]

theorem flatMap_range_blocks (c U : Nat) :
    (List.range c).flatMap (fun m => (List.range U).map (fun i => m * U + i))
      = List.range (c * U) := by
  induction c with
  | zero => simp
  | succ n ih =>
    rw [List.range_succ, List.flatMap_append, ih, Nat.succ_mul, List.range_add]
    simp

theorem cdiv_le_iff (N s m : Nat) (hs : 1 ≤ s) : cdiv N s ≤ m ↔ N ≤ m * s := by
  unfold cdiv
  rw [Nat.div_le_iff_le_mul_add_pred hs, Nat.mul_comm s m]
  generalize m * s = t
  omega

theorem lt_cdiv_iff (N s m : Nat) (hs : 1 ≤ s) : m < cdiv N s ↔ m * s < N := by
  have h := cdiv_le_iff N s m hs
  omega

theorem le_cdiv_mul (N s : Nat) (hs : 1 ≤ s) : N ≤ cdiv N s * s :=
  (cdiv_le_iff N s (cdiv N s) hs).mp le_rfl

theorem cdiv_mul_of_dvd (N U : Nat) (hU : 1 ≤ U) (h : U ∣ N) :
    U * cdiv N U = N := by
  obtain ⟨q, rfl⟩ := h
  unfold cdiv
  have h1 : U * q + U - 1 = U - 1 + U * q := by omega
  rw [h1, Nat.add_mul_div_left _ _ hU, Nat.div_eq_of_lt (by omega)]
  ring

theorem guardedWave_map_linear (s : Shape) (ld : LaunchDimensions) (U : Nat)
    (b : Option Nat) (blk tid : Nat) (hU : 1 ≤ U) :
    (guardedWaveIndices s ld U b blk tid).map (fun ix => ix.linear)
      = if linear_index_base ld U b blk tid < elementsIn s
        then (List.range U).map (fun i => linear_index_base ld U b blk tid + i)
        else [] := by
  unfold guardedWaveIndices EmitIndexAndSetExitBasicBlock
  split
  · rw [waveIndicesWithFlag_map_linear s ld U b blk tid _ hU]
  · rfl

theorem allFedLinears_eq (s : Shape) (ld : LaunchDimensions) (U : Nat)
    (hbx : 1 ≤ ld.block_counts.x) (htx : 1 ≤ ld.thread_counts_per_block.x)
    (hU : 1 ≤ U) :
    allFedLinears s ld U = List.range (U * cdiv (elementsIn s) U) := by
  have hg : ∀ (b : Option Nat) (blk tid : Nat),
      (guardedWaveIndices s ld U b blk tid).map (fun ix => ix.linear)
        = if (blk * ld.thread_counts_per_block.x + tid) * U + b.getD 0 < elementsIn s
          then (List.range U).map
              (fun i => (blk * ld.thread_counts_per_block.x + tid) * U + b.getD 0 + i)
          else [] := by
    intro b blk tid
    rw [guardedWave_map_linear s ld U b blk tid hU, linear_index_base_eq ld U b blk tid hU]
  have tail : ∀ A : Nat, cdiv (elementsIn s) U ≤ A →
      (List.range A).flatMap
          (fun m => if m * U < elementsIn s
            then (List.range U).map (fun i => m * U + i) else [])
        = List.range (U * cdiv (elementsIn s) U) := by
    intro A hA
    rw [flatMap_range_truncate _ (cdiv (elementsIn s) U) A hA
        (fun m hm => if_neg (by
          have := (cdiv_le_iff (elementsIn s) U m hU).mp hm
          omega))]
    rw [List.flatMap_congr (g := fun m => (List.range U).map (fun i => m * U + i))
        (fun m hm => if_pos ((lt_cdiv_iff (elementsIn s) U m hU).mp (List.mem_range.mp hm)))]
    rw [flatMap_range_blocks, Nat.mul_comm]
  have hpush : allFedLinears s ld U
      = (emitLoopWaveOffsets s ld U).flatMap (fun b =>
          (List.range ld.block_counts.x).flatMap (fun blk =>
            (List.range ld.thread_counts_per_block.x).flatMap (fun tid =>
              (guardedWaveIndices s ld U b blk tid).map (fun ix => ix.linear)))) := by
    unfold allFedLinears emitLoopFeed
    simp only [List.map_flatMap]
  rw [hpush]
  simp only [hg]
  by_cases hc : elementsIn s ≤ ld.launch_bound * U
  · have hoff : emitLoopWaveOffsets s ld U = [none] := by
      unfold emitLoopWaveOffsets
      rw [if_pos hc]
    rw [hoff]
    simp only [List.flatMap_cons, List.flatMap_nil, List.append_nil, Option.getD_none,
      Nat.add_zero]
    rw [← flatMap_range_mul
        (fun m => if m * U < elementsIn s
          then (List.range U).map (fun i => m * U + i) else [])
        ld.block_counts.x ld.thread_counts_per_block.x]
    exact tail _ ((cdiv_le_iff _ U _ hU).mpr hc)
  · have hoff : emitLoopWaveOffsets s ld U
        = (List.range (cdiv (elementsIn s) (ld.launch_bound * U))).map
            (fun k => some (k * (ld.launch_bound * U))) := by
      unfold emitLoopWaveOffsets
      rw [if_neg hc]
    rw [hoff, List.flatMap_map]
    have harith : ∀ k blk tid : Nat,
        (blk * ld.thread_counts_per_block.x + tid) * U
            + (some (k * (ld.launch_bound * U)) : Option Nat).getD 0
          = (k * (ld.block_counts.x * ld.thread_counts_per_block.x)
              + (blk * ld.thread_counts_per_block.x + tid)) * U := by
      intro k blk tid
      unfold LaunchDimensions.launch_bound
      simp [Option.getD_some]
      ring
    simp only [harith]
    have hinner : ∀ k : Nat,
        ((List.range ld.block_counts.x).flatMap fun blk =>
          (List.range ld.thread_counts_per_block.x).flatMap fun tid =>
            if (k * (ld.block_counts.x * ld.thread_counts_per_block.x)
                  + (blk * ld.thread_counts_per_block.x + tid)) * U < elementsIn s then
              List.map
                (fun i => (k * (ld.block_counts.x * ld.thread_counts_per_block.x)
                  + (blk * ld.thread_counts_per_block.x + tid)) * U + i)
                (List.range U)
            else [])
          = (List.range (ld.block_counts.x * ld.thread_counts_per_block.x)).flatMap
              (fun t =>
                if (k * (ld.block_counts.x * ld.thread_counts_per_block.x) + t) * U
                    < elementsIn s then
                  List.map
                    (fun i =>
                      (k * (ld.block_counts.x * ld.thread_counts_per_block.x) + t) * U + i)
                    (List.range U)
                else []) := by
      intro k
      exact (flatMap_range_mul
        (fun t =>
          if (k * (ld.block_counts.x * ld.thread_counts_per_block.x) + t) * U
              < elementsIn s then
            List.map
              (fun i =>
                (k * (ld.block_counts.x * ld.thread_counts_per_block.x) + t) * U + i)
              (List.range U)
          else [])
        ld.block_counts.x ld.thread_counts_per_block.x).symm
    simp only [hinner]
    rw [← flatMap_range_mul
        (fun m => if m * U < elementsIn s
          then (List.range U).map (fun i => m * U + i) else [])
        (cdiv (elementsIn s) (ld.launch_bound * U))
        (ld.block_counts.x * ld.thread_counts_per_block.x)]
    apply tail
    have hstep : 1 ≤ ld.launch_bound * U := by
      unfold LaunchDimensions.launch_bound
      exact Nat.one_le_iff_ne_zero.mpr (by positivity)
    have hNle : elementsIn s
        ≤ cdiv (elementsIn s) (ld.launch_bound * U) * (ld.launch_bound * U) :=
      le_cdiv_mul _ _ hstep
    apply (cdiv_le_iff _ U _ hU).mpr
    calc elementsIn s
        ≤ cdiv (elementsIn s) (ld.launch_bound * U) * (ld.launch_bound * U) := hNle
      _ = cdiv (elementsIn s) (ld.launch_bound * U)
            * (ld.block_counts.x * ld.thread_counts_per_block.x) * U := by
          unfold LaunchDimensions.launch_bound
          ring

/-! ### Lemmas for the row-index fast path -/

theorem set_getD_self {α : Type} :
    ∀ (l : List α) (n : Nat) (d : α), n < l.length → l.set n (l.getD n d) = l
  | [], n, _, h => absurd h (by simp)
  | a :: t, 0, d, _ => by simp
  | a :: t, n + 1, d, h => by
    rw [List.getD_cons_succ, List.set_cons_succ,
      set_getD_self t n d (by simpa using h)]

theorem length_delinearize (s : Shape) (lin : Nat) :
    (delinearize s lin).length = s.rank := by
  simp [delinearize]

theorem getD_last_of_ne_nil {α : Type} (l : List α) (d1 d2 : α) (hne : l ≠ []) :
    l.getD (l.length - 1) d1 = (l.getLast?).getD d2 := by
  have hl : l.length - 1 < l.length := by
    cases l with
    | nil => exact absurd rfl hne
    | cons a t => simp
  rw [List.getD_eq_getElem?_getD, List.getLast?_eq_getElem?,
    List.getElem?_eq_getElem hl]
  rfl

theorem delinearize_getD_minormost (s : Shape) (m2m : List Nat) (lin : Nat)
    (hm : s.minor_to_major = some m2m) (hh : m2m.head? = some (s.rank - 1))
    (hr : 1 ≤ s.rank) :
    (delinearize s lin).getD (s.rank - 1) 0
      = lin % s.dimensions.getD (s.rank - 1) 1 := by
  obtain ⟨t, rfl⟩ : ∃ t, m2m = (s.rank - 1) :: t := by
    cases m2m with
    | nil => simp at hh
    | cons a t =>
      simp only [List.head?_cons, Option.some_inj] at hh
      exact ⟨t, by rw [hh]⟩
  have hcoord : delinearizeCoord s lin (s.rank - 1)
      = lin % s.dimensions.getD (s.rank - 1) 1 := by
    unfold delinearizeCoord layoutOrDefault
    rw [hm]
    simp [List.indexOf_cons_self, dimStride]
  have hlt : s.rank - 1 < s.rank := by omega
  calc (delinearize s lin).getD (s.rank - 1) 0
      = delinearizeCoord s lin (s.rank - 1) := by
        unfold delinearize
        rw [List.getD_eq_getElem?_getD, List.getElem?_map, List.getElem?_range hlt]
        rfl
    _ = lin % s.dimensions.getD (s.rank - 1) 1 := hcoord

theorem row_mod_eq (tpbx U blk tid i v : Nat) (htid : tid < tpbx) (hi : i < U)
    (hdvd : tpbx * U ∣ v) :
    ((blk * tpbx + tid) * U + v + i) % (tpbx * U) = tid * U + i := by
  obtain ⟨c, rfl⟩ := hdvd
  have h1 : (blk * tpbx + tid) * U + tpbx * U * c + i
      = tid * U + i + (blk + c) * (tpbx * U) := by ring
  rw [h1, Nat.add_mul_mod_self_right]
  apply Nat.mod_eq_of_lt
  have h2 : tid * U + i < (tid + 1) * U := by
    rw [Nat.succ_mul]
    omega
  have h3 : (tid + 1) * U ≤ tpbx * U := Nat.mul_le_mul_right U htid
  omega

/-! ### Claim theorems -/

/-- C5 (amended): the row-index fast path produces the same coordinate
vectors as the generic linear decomposition provided that, in addition to the
code's enablement conditions, the y and z thread counts are 1, the layout's
fastest-varying (minor-most) dimension is the shape's last dimension, the
thread id is within its platform range, and the caller-supplied base offset
is a multiple of `thread_counts.x * U` (as every base offset produced by
`EmitLoop`'s residual loop is). -/
theorem claim_C5_row_equiv (s : Shape) (ld : LaunchDimensions) (U : Nat)
    (base : Option Nat) (blk tid : Nat) (m2m : List Nat)
    (hm : s.minor_to_major = some m2m)
    (hfast : m2m.head? = some (s.rank - 1))
    (hy : ld.thread_counts_per_block.y = 1)
    (hz : ld.thread_counts_per_block.z = 1)
    (hen : enable_row_index s ld U = true)
    (htid : tid < ld.thread_counts_per_block.x)
    (hb : ld.thread_counts_per_block.x * U ∣ base.getD 0) :
    EmitIndexAndSetExitBasicBlock s ld U base blk tid
      = waveIndicesWithFlag s ld U base blk tid false := by
  have hen' := hen
  simp only [enable_row_index, Bool.and_eq_true, decide_eq_true_eq] at hen'
  obtain ⟨⟨⟨⟨hrank, hU1⟩, hlay⟩, hmaj⟩, hprod⟩ := hen'
  have hU : 1 ≤ U := by omega
  have hne : s.dimensions ≠ [] := by
    unfold Shape.rank at hrank
    cases hd : s.dimensions with
    | nil => rw [hd] at hrank; simp at hrank
    | cons a t => simp
  have hD : s.dimensions.getD (s.rank - 1) 1 = ld.thread_counts_per_block.x * U := by
    rw [hy, hz] at hprod
    have h1 : s.dimensions.getD (s.rank - 1) 1 = (s.dimensions.getLast?).getD 0 :=
      getD_last_of_ne_nil s.dimensions 1 0 hne
    rw [h1, ← hprod]
    ring
  unfold EmitIndexAndSetExitBasicBlock
  rw [hen]
  rw [waveIndicesWithFlag_eq_map s ld U base blk tid true hU,
    waveIndicesWithFlag_eq_map s ld U base blk tid false hU]
  apply List.map_congr_left
  intro i hi
  have hiU : i < U := List.mem_range.mp hi
  have hset : (delinearize s (linear_index_base ld U base blk tid + i)).set
        (s.rank - 1) (tid * U + i)
      = delinearize s (linear_index_base ld U base blk tid + i) := by
    have hval : (delinearize s (linear_index_base ld U base blk tid + i)).getD
          (s.rank - 1) 0 = tid * U + i := by
      rw [delinearize_getD_minormost s m2m _ hm hfast (by omega), hD,
        linear_index_base_eq ld U base blk tid hU]
      exact row_mod_eq ld.thread_counts_per_block.x U blk tid i (base.getD 0)
        htid hiU hb
    have hlen : s.rank - 1 < (delinearize s (linear_index_base ld U base blk tid + i)).length := by
      rw [length_delinearize]
      omega
    calc (delinearize s (linear_index_base ld U base blk tid + i)).set
          (s.rank - 1) (tid * U + i)
        = (delinearize s (linear_index_base ld U base blk tid + i)).set (s.rank - 1)
            ((delinearize s (linear_index_base ld U base blk tid + i)).getD (s.rank - 1) 0) := by
          rw [hval]
      _ = delinearize s (linear_index_base ld U base blk tid + i) :=
          set_getD_self _ _ _ hlen
  simp [mkWaveIndex, hset]

/-- C4 (amended): the row-index fast path is enabled iff rank is greater
than 1, the unroll factor is greater than 1, the shape has an explicit layout
whose entry at the major-most position `rank - 1` is dimension 0 (the shape's
first dimension is the slowest-varying one — not, as the original claim put
it, the last dimension being the fastest-varying one), and the thread-count
volume times the unroll factor equals the last dimension's size. -/
theorem claim_C4_enablement (s : Shape) (ld : LaunchDimensions) (U : Nat) :
    enable_row_index s ld U = true ↔
      (1 < s.rank ∧ 1 < U ∧
        (∃ m2m, s.minor_to_major = some m2m
          ∧ m2m.getD (s.rank - 1) s.rank = 0) ∧
        ld.thread_counts_per_block.x * ld.thread_counts_per_block.y *
            ld.thread_counts_per_block.z * U
          = (s.dimensions.getLast?).getD 0) := by
  simp only [enable_row_index, Bool.and_eq_true, decide_eq_true_eq,
    Shape.has_layout]
  constructor
  · rintro ⟨⟨⟨⟨h1, h2⟩, h3⟩, h4⟩, h5⟩
    obtain ⟨m2m, hm⟩ := Option.isSome_iff_exists.mp h3
    refine ⟨h1, h2, ⟨m2m, hm, ?_⟩, h5⟩
    unfold layoutOrDefault at h4
    rw [hm] at h4
    simpa using h4
  · rintro ⟨h1, h2, ⟨m2m, hm, hg⟩, h5⟩
    refine ⟨⟨⟨⟨h1, h2⟩, ?_⟩, ?_⟩, h5⟩
    · rw [hm]
      rfl
    · unfold layoutOrDefault
      rw [hm]
      simpa using hg

/-- C4 counterexample: for the rank-3 shape [2,3,4] with minor-to-major
layout [1,2,0] (fastest-varying dimension is dimension 1, not the last
dimension 2), 2 threads and unroll factor 2, the code enables the fast path
although the claim's condition — fastest-varying dimension equal to the last
dimension — is false. -/
theorem claim_C4_counterexample :
    enable_row_index ⟨[2, 3, 4], some [1, 2, 0]⟩ ⟨⟨1, 1, 1⟩, ⟨2, 1, 1⟩⟩ 2 = true
      ∧ ¬ specRowIndexCond ⟨[2, 3, 4], some [1, 2, 0]⟩ ⟨⟨1, 1, 1⟩, ⟨2, 1, 1⟩⟩ 2 := by
  constructor
  · rfl
  · decide

/-- C10: the linear component of the index returned for unroll slot `i` is
`linear_index_base + i` whether or not the row-index fast path is taken; the
fast path changes only the coordinate vector, never the linear component. -/
theorem claim_C10_linear_same (s : Shape) (ld : LaunchDimensions) (U : Nat)
    (base : Option Nat) (blk tid : Nat) :
    (∀ (row : Bool) (lib i : Nat),
       (mkWaveIndex s U tid row lib i).linear = lib + i) ∧
    (EmitIndexAndSetExitBasicBlock s ld U base blk tid).map (fun ix => ix.linear)
      = (waveIndicesWithFlag s ld U base blk tid false).map (fun ix => ix.linear) := by
  refine ⟨fun row lib i => mkWaveIndex_linear s U tid row lib i, ?_⟩
  unfold EmitIndexAndSetExitBasicBlock waveIndicesWithFlag
  simp [List.map_map, Function.comp, mkWaveIndex_linear]

/-- C6: in the generic (non-fast-path) case the mapper emits exactly one
index per unroll slot, the slot-`k` index has linear value
`linear_index_base + k` and the standard delinearization of that value as its
coordinate vector, and `linear_index_base` equals
`(block_id * thread_counts.x + thread_id) * U` plus the caller-supplied base
offset (0 when absent). -/
theorem claim_C6_generic_mapper (s : Shape) (ld : LaunchDimensions) (U : Nat)
    (base : Option Nat) (blk tid : Nat) (hU : 1 ≤ U)
    (hrow : enable_row_index s ld U = false) :
    (EmitIndexAndSetExitBasicBlock s ld U base blk tid).length = U ∧
    (∀ k, k < U →
       (EmitIndexAndSetExitBasicBlock s ld U base blk tid)[k]?
         = some { linear := linear_index_base ld U base blk tid + k,
                  multidim := delinearize s (linear_index_base ld U base blk tid + k) }) ∧
    linear_index_base ld U base blk tid
      = (blk * ld.thread_counts_per_block.x + tid) * U + base.getD 0 := by
  have hmap : EmitIndexAndSetExitBasicBlock s ld U base blk tid
      = (List.range U).map
          (mkWaveIndex s U tid false (linear_index_base ld U base blk tid)) := by
    unfold EmitIndexAndSetExitBasicBlock
    rw [hrow]
    exact waveIndicesWithFlag_eq_map s ld U base blk tid false hU
  refine ⟨?_, ?_, linear_index_base_eq ld U base blk tid hU⟩
  · rw [hmap]
    simp
  · intro k hk
    rw [hmap, List.getElem?_map, List.getElem?_range hk]
    rfl

/-- C3: `EmitLoop` emits exactly one wave (no residual loop) iff
`launch_bound * U >= total_element_count`; otherwise it wraps the mapper in a
counted loop whose iterations pass the base offsets `0, step, 2*step, ...`
(step = `launch_bound * U`), i.e. exactly
`ceil(total_element_count / step)` iterations. -/
theorem claim_C3_capacity (s : Shape) (ld : LaunchDimensions) (U : Nat)
    (hpos : 1 ≤ ld.launch_bound * U) :
    ((emitLoopWaveOffsets s ld U).length = 1
       ↔ elementsIn s ≤ ld.launch_bound * U) ∧
    (elementsIn s ≤ ld.launch_bound * U → emitLoopWaveOffsets s ld U = [none]) ∧
    (ld.launch_bound * U < elementsIn s →
       emitLoopWaveOffsets s ld U
         = (List.range (cdiv (elementsIn s) (ld.launch_bound * U))).map
             (fun k => some (k * (ld.launch_bound * U))) ∧
       (emitLoopWaveOffsets s ld U).length
         = cdiv (elementsIn s) (ld.launch_bound * U)) := by
  by_cases hc : elementsIn s ≤ ld.launch_bound * U
  · have hoff : emitLoopWaveOffsets s ld U = [none] := by
      unfold emitLoopWaveOffsets
      rw [if_pos hc]
    exact ⟨by rw [hoff]; simpa using hc, fun _ => hoff, fun hlt => absurd hc (by omega)⟩
  · have hoff : emitLoopWaveOffsets s ld U
        = (List.range (cdiv (elementsIn s) (ld.launch_bound * U))).map
            (fun k => some (k * (ld.launch_bound * U))) := by
      unfold emitLoopWaveOffsets
      rw [if_neg hc]
    have hlen : (emitLoopWaveOffsets s ld U).length
        = cdiv (elementsIn s) (ld.launch_bound * U) := by
      rw [hoff]
      simp
    have h2 : 2 ≤ cdiv (elementsIn s) (ld.launch_bound * U) := by
      have h1iff := cdiv_le_iff (elementsIn s) (ld.launch_bound * U) 1 hpos
      rw [Nat.one_mul] at h1iff
      omega
    refine ⟨⟨fun hl1 => ?_, fun h => absurd h hc⟩, fun h => absurd h hc,
      fun _ => ⟨hoff, hlen⟩⟩
    rw [hlen] at hl1
    omega

/-- C8: for a shape with zero elements the guard condition
`linear_index_base < 0` is never satisfied: no index is handed to the body
and `EmitLoop` succeeds. -/
theorem claim_C8_zero_size {ε : Type} (s : Shape) (ld : LaunchDimensions)
    (U : Nat) (body : LogicalIndex → Except ε Unit)
    (h : elementsIn s = 0) :
    emitLoopFeed s ld U = [] ∧ EmitLoop s ld U body = ([], Except.ok ()) := by
  have hfeed : emitLoopFeed s ld U = [] := by
    unfold emitLoopFeed
    refine List.flatMap_eq_nil_iff.mpr (fun b _ => ?_)
    refine List.flatMap_eq_nil_iff.mpr (fun blk _ => ?_)
    refine List.flatMap_eq_nil_iff.mpr (fun tid _ => ?_)
    unfold guardedWaveIndices
    rw [h]
    simp
  refine ⟨hfeed, ?_⟩
  unfold EmitLoop
  rw [hfeed]
  rfl

/-- C9: if the body callback fails on some fed index then `EmitLoop` hands
the body exactly the indices up to and including the failing one — nothing
from the rest of the current wave or any later wave — and returns the same
error unchanged. -/
theorem claim_C9_fail_fast {ε : Type} (s : Shape) (ld : LaunchDimensions)
    (U : Nat) (body : LogicalIndex → Except ε Unit)
    (pre : List LogicalIndex) (x : LogicalIndex) (suf : List LogicalIndex)
    (e : ε)
    (hfeed : emitLoopFeed s ld U = pre ++ x :: suf)
    (hpre : ∀ y ∈ pre, body y = Except.ok ())
    (hx : body x = Except.error e) :
    EmitLoop s ld U body = (pre ++ [x], Except.error e) := by
  unfold EmitLoop
  rw [hfeed]
  clear hfeed
  revert hpre
  induction pre with
  | nil =>
    intro _
    simp only [List.nil_append]
    unfold runBody
    rw [hx]
  | cons a t ih =>
    intro hpre
    have ha : body a = Except.ok () := hpre a (List.mem_cons_self a t)
    have ht := ih (fun y hy => hpre y (List.mem_cons_of_mem a hy))
    simp only [List.cons_append]
    unfold runBody
    rw [ha, ht]

theorem waveIndices_map_linear_flag_free (s : Shape) (ld : LaunchDimensions)
    (U : Nat) (b : Option Nat) (blk tid : Nat) (r1 r2 : Bool) :
    (waveIndicesWithFlag s ld U b blk tid r1).map (fun ix => ix.linear)
      = (waveIndicesWithFlag s ld U b blk tid r2).map (fun ix => ix.linear) := by
  unfold waveIndicesWithFlag
  simp [List.map_map, Function.comp, mkWaveIndex_linear]

/-- C1 (amended): under all-positive launch components and unroll factor, the
sequence of linear indices handed to the body across all waves is exactly
`0, 1, ..., U * ceil(N / U) - 1` where `N = total_element_count`: every
element of `[0, N)` is visited exactly once, and when `U` does not divide
`N` the out-of-range values `[N, U * ceil(N / U))` are additionally visited
once each (the guard checks only the first unroll slot of a wave).  The
original claim — the multiset being exactly `[0, N)` — holds precisely when
`U` divides `N` (so also when `N = 0`). -/
theorem claim_C1_coverage (s : Shape) (ld : LaunchDimensions) (U : Nat)
    (hbx : 1 ≤ ld.block_counts.x) (hby : 1 ≤ ld.block_counts.y)
    (hbz : 1 ≤ ld.block_counts.z) (htx : 1 ≤ ld.thread_counts_per_block.x)
    (hty : 1 ≤ ld.thread_counts_per_block.y)
    (htz : 1 ≤ ld.thread_counts_per_block.z) (hU : 1 ≤ U) :
    allFedLinears s ld U = List.range (U * cdiv (elementsIn s) U) ∧
    (U ∣ elementsIn s → allFedLinears s ld U = List.range (elementsIn s)) := by
  have h := allFedLinears_eq s ld U hbx htx hU
  refine ⟨h, fun hdvd => ?_⟩
  rw [h, cdiv_mul_of_dvd (elementsIn s) U hU hdvd]

/-- C1 counterexample: shape [1] (one element), a 1 x 1 launch, unroll factor
2 — all launch components and the unroll factor are at least 1 — yet the body
receives linear indices 0 and 1, not the set [0, 1): the guard admits the
whole 2-slot wave because only its first slot is bounds-checked. -/
theorem claim_C1_counterexample :
    ¬ ((allFedLinears ⟨[1], none⟩ ⟨⟨1, 1, 1⟩, ⟨1, 1, 1⟩⟩ 2 : Multiset Nat)
        = (List.range (elementsIn ⟨[1], none⟩) : Multiset Nat)) := by
  decide

/-- C1 witness. -/
theorem claim_C1_witness :
    allFedLinears ⟨[10000], none⟩ ⟨⟨4, 1, 1⟩, ⟨256, 1, 1⟩⟩ 4
        = List.range (4 * cdiv (elementsIn ⟨[10000], none⟩) 4) ∧
      (4 ∣ elementsIn ⟨[10000], none⟩ →
        allFedLinears ⟨[10000], none⟩ ⟨⟨4, 1, 1⟩, ⟨256, 1, 1⟩⟩ 4
          = List.range (elementsIn ⟨[10000], none⟩)) :=
  claim_C1_coverage ⟨[10000], none⟩ ⟨⟨4, 1, 1⟩, ⟨256, 1, 1⟩⟩ 4
    (by decide) (by decide) (by decide) (by decide) (by decide) (by decide)
    (by decide)

/-- C2 (amended): every linear index handed to the body is below
`U * ceil(N / U)` — hence below `N + U` — and below `N` itself whenever `U`
divides `N`; the guard tests only the wave's first slot, whose linear value
is therefore always below `N` when any index of the wave is fed. -/
theorem claim_C2_bounds (s : Shape) (ld : LaunchDimensions) (U : Nat)
    (hbx : 1 ≤ ld.block_counts.x) (hby : 1 ≤ ld.block_counts.y)
    (hbz : 1 ≤ ld.block_counts.z) (htx : 1 ≤ ld.thread_counts_per_block.x)
    (hty : 1 ≤ ld.thread_counts_per_block.y)
    (htz : 1 ≤ ld.thread_counts_per_block.z) (hU : 1 ≤ U) :
    (∀ v ∈ allFedLinears s ld U, v < U * cdiv (elementsIn s) U) ∧
    (U ∣ elementsIn s → ∀ v ∈ allFedLinears s ld U, v < elementsIn s) ∧
    (∀ (b : Option Nat) (blk tid : Nat),
       guardedWaveIndices s ld U b blk tid ≠ [] →
       linear_index_base ld U b blk tid < elementsIn s) := by
  have h := allFedLinears_eq s ld U hbx htx hU
  refine ⟨?_, ?_, ?_⟩
  · intro v hv
    rw [h] at hv
    exact List.mem_range.mp hv
  · intro hdvd v hv
    rw [h, cdiv_mul_of_dvd (elementsIn s) U hU hdvd] at hv
    exact List.mem_range.mp hv
  · intro b blk tid hne
    by_contra hge
    apply hne
    unfold guardedWaveIndices
    rw [if_neg hge]

/-- C2 counterexample: in the [1]-shaped, 1 x 1, unroll-2 configuration the
linear index 1 is handed to the body inside the taken guard although
`1 ≥ total_element_count = 1`: the second unroll slot is not individually
bounds-checked. -/
theorem claim_C2_counterexample :
    (1 : Nat) ∈ allFedLinears ⟨[1], none⟩ ⟨⟨1, 1, 1⟩, ⟨1, 1, 1⟩⟩ 2
      ∧ ¬ ((1 : Nat) < elementsIn ⟨[1], none⟩) := by
  decide

/-- C2 witness. -/
theorem claim_C2_witness :
    (∀ v ∈ allFedLinears ⟨[6], none⟩ ⟨⟨2, 1, 1⟩, ⟨2, 1, 1⟩⟩ 2,
       v < 2 * cdiv (elementsIn ⟨[6], none⟩) 2) ∧
    (2 ∣ elementsIn ⟨[6], none⟩ →
       ∀ v ∈ allFedLinears ⟨[6], none⟩ ⟨⟨2, 1, 1⟩, ⟨2, 1, 1⟩⟩ 2,
         v < elementsIn ⟨[6], none⟩) ∧
    (∀ (b : Option Nat) (blk tid : Nat),
       guardedWaveIndices ⟨[6], none⟩ ⟨⟨2, 1, 1⟩, ⟨2, 1, 1⟩⟩ 2 b blk tid ≠ [] →
       linear_index_base ⟨⟨2, 1, 1⟩, ⟨2, 1, 1⟩⟩ 2 b blk tid
         < elementsIn ⟨[6], none⟩) :=
  claim_C2_bounds ⟨[6], none⟩ ⟨⟨2, 1, 1⟩, ⟨2, 1, 1⟩⟩ 2
    (by decide) (by decide) (by decide) (by decide) (by decide) (by decide)
    (by decide)

/-- C7 (amended): the y/z components of the group-count triple are ignored
entirely, and the y/z components of the threads-per-group triple influence
only the row-index fast-path decision: for two launch geometries agreeing in
the x components, the wave offsets (capacity decision) and the sequence of
linear index values agree, and if the fast-path decisions also agree then the
full emitted index sequences agree. -/
theorem claim_C7_x_only (s : Shape) (ld1 ld2 : LaunchDimensions) (U : Nat)
    (hbx : ld1.block_counts.x = ld2.block_counts.x)
    (htx : ld1.thread_counts_per_block.x = ld2.thread_counts_per_block.x) :
    emitLoopWaveOffsets s ld1 U = emitLoopWaveOffsets s ld2 U ∧
    allFedLinears s ld1 U = allFedLinears s ld2 U ∧
    (enable_row_index s ld1 U = enable_row_index s ld2 U →
       emitLoopFeed s ld1 U = emitLoopFeed s ld2 U) := by
  obtain ⟨⟨b1x, b1y, b1z⟩, ⟨t1x, t1y, t1z⟩⟩ := ld1
  obtain ⟨⟨b2x, b2y, b2z⟩, ⟨t2x, t2y, t2z⟩⟩ := ld2
  simp only at hbx htx
  subst hbx
  subst htx
  have hoffs : emitLoopWaveOffsets s ⟨⟨b1x, b1y, b1z⟩, ⟨t1x, t1y, t1z⟩⟩ U
      = emitLoopWaveOffsets s ⟨⟨b1x, b2y, b2z⟩, ⟨t1x, t2y, t2z⟩⟩ U := rfl
  have hguard : ∀ (b : Option Nat) (blk tid : Nat),
      (guardedWaveIndices s ⟨⟨b1x, b1y, b1z⟩, ⟨t1x, t1y, t1z⟩⟩ U b blk tid).map
          (fun ix => ix.linear)
        = (guardedWaveIndices s ⟨⟨b1x, b2y, b2z⟩, ⟨t1x, t2y, t2z⟩⟩ U b blk tid).map
            (fun ix => ix.linear) := by
    intro b blk tid
    by_cases hc : linear_index_base ⟨⟨b1x, b1y, b1z⟩, ⟨t1x, t1y, t1z⟩⟩ U b blk tid
        < elementsIn s
    · have hc2 : linear_index_base ⟨⟨b1x, b2y, b2z⟩, ⟨t1x, t2y, t2z⟩⟩ U b blk tid
          < elementsIn s := hc
      unfold guardedWaveIndices EmitIndexAndSetExitBasicBlock
      rw [if_pos hc, if_pos hc2]
      calc (waveIndicesWithFlag s ⟨⟨b1x, b1y, b1z⟩, ⟨t1x, t1y, t1z⟩⟩ U b blk tid
              (enable_row_index s ⟨⟨b1x, b1y, b1z⟩, ⟨t1x, t1y, t1z⟩⟩ U)).map
            (fun ix => ix.linear)
          = (waveIndicesWithFlag s ⟨⟨b1x, b1y, b1z⟩, ⟨t1x, t1y, t1z⟩⟩ U b blk tid
              false).map (fun ix => ix.linear) :=
            waveIndices_map_linear_flag_free s _ U b blk tid _ false
        _ = (waveIndicesWithFlag s ⟨⟨b1x, b2y, b2z⟩, ⟨t1x, t2y, t2z⟩⟩ U b blk tid
              false).map (fun ix => ix.linear) := rfl
        _ = (waveIndicesWithFlag s ⟨⟨b1x, b2y, b2z⟩, ⟨t1x, t2y, t2z⟩⟩ U b blk tid
              (enable_row_index s ⟨⟨b1x, b2y, b2z⟩, ⟨t1x, t2y, t2z⟩⟩ U)).map
            (fun ix => ix.linear) :=
            (waveIndices_map_linear_flag_free s _ U b blk tid _ false).symm
    · have hc2 : ¬ linear_index_base ⟨⟨b1x, b2y, b2z⟩, ⟨t1x, t2y, t2z⟩⟩ U b blk tid
          < elementsIn s := hc
      unfold guardedWaveIndices
      rw [if_neg hc, if_neg hc2]
  refine ⟨hoffs, ?_, ?_⟩
  · unfold allFedLinears emitLoopFeed
    rw [← hoffs]
    simp only [List.map_flatMap]
    exact List.flatMap_congr (fun b _ =>
      List.flatMap_congr (fun blk _ =>
        List.flatMap_congr (fun tid _ => hguard b blk tid)))
  · intro hflag
    unfold emitLoopFeed
    rw [← hoffs]
    refine List.flatMap_congr (fun b _ =>
      List.flatMap_congr (fun blk _ =>
        List.flatMap_congr (fun tid _ => ?_)))
    by_cases hc : linear_index_base ⟨⟨b1x, b1y, b1z⟩, ⟨t1x, t1y, t1z⟩⟩ U b blk tid
        < elementsIn s
    · have hc2 : linear_index_base ⟨⟨b1x, b2y, b2z⟩, ⟨t1x, t2y, t2z⟩⟩ U b blk tid
          < elementsIn s := hc
      unfold guardedWaveIndices EmitIndexAndSetExitBasicBlock
      rw [if_pos hc, if_pos hc2, hflag]
      rfl
    · have hc2 : ¬ linear_index_base ⟨⟨b1x, b2y, b2z⟩, ⟨t1x, t2y, t2z⟩⟩ U b blk tid
          < elementsIn s := hc
      unfold guardedWaveIndices
      rw [if_neg hc, if_neg hc2]

/-- C3 witness (spec scenario A: 1000 elements, 128 x 8 threads, unroll 1). -/
theorem claim_C3_witness :
    ((emitLoopWaveOffsets ⟨[1000], none⟩ ⟨⟨128, 1, 1⟩, ⟨8, 1, 1⟩⟩ 1).length = 1
      ↔ elementsIn ⟨[1000], none⟩
          ≤ LaunchDimensions.launch_bound ⟨⟨128, 1, 1⟩, ⟨8, 1, 1⟩⟩ * 1) ∧
    (elementsIn ⟨[1000], none⟩
        ≤ LaunchDimensions.launch_bound ⟨⟨128, 1, 1⟩, ⟨8, 1, 1⟩⟩ * 1 →
      emitLoopWaveOffsets ⟨[1000], none⟩ ⟨⟨128, 1, 1⟩, ⟨8, 1, 1⟩⟩ 1 = [none]) ∧
    (LaunchDimensions.launch_bound ⟨⟨128, 1, 1⟩, ⟨8, 1, 1⟩⟩ * 1
        < elementsIn ⟨[1000], none⟩ →
      emitLoopWaveOffsets ⟨[1000], none⟩ ⟨⟨128, 1, 1⟩, ⟨8, 1, 1⟩⟩ 1
        = (List.range (cdiv (elementsIn ⟨[1000], none⟩)
            (LaunchDimensions.launch_bound ⟨⟨128, 1, 1⟩, ⟨8, 1, 1⟩⟩ * 1))).map
            (fun k => some
              (k * (LaunchDimensions.launch_bound ⟨⟨128, 1, 1⟩, ⟨8, 1, 1⟩⟩ * 1))) ∧
      (emitLoopWaveOffsets ⟨[1000], none⟩ ⟨⟨128, 1, 1⟩, ⟨8, 1, 1⟩⟩ 1).length
        = cdiv (elementsIn ⟨[1000], none⟩)
            (LaunchDimensions.launch_bound ⟨⟨128, 1, 1⟩, ⟨8, 1, 1⟩⟩ * 1)) :=
  claim_C3_capacity ⟨[1000], none⟩ ⟨⟨128, 1, 1⟩, ⟨8, 1, 1⟩⟩ 1 (by decide)

/-- C5 counterexample: shape [2,4] with row-major layout [1,0], 2 blocks of
(1,2,1) threads, unroll factor 2.  The fast-path conditions — both the code's
and the spec's — hold, yet for block 1, thread 0 the fast path yields a
coordinate vector different from the generic decomposition: the directly
computed innermost coordinate ignores the y thread count that entered the
enablement product. -/
theorem claim_C5_counterexample :
    enable_row_index ⟨[2, 4], some [1, 0]⟩ ⟨⟨2, 1, 1⟩, ⟨1, 2, 1⟩⟩ 2 = true ∧
    specRowIndexCond ⟨[2, 4], some [1, 0]⟩ ⟨⟨2, 1, 1⟩, ⟨1, 2, 1⟩⟩ 2 ∧
    EmitIndexAndSetExitBasicBlock ⟨[2, 4], some [1, 0]⟩ ⟨⟨2, 1, 1⟩, ⟨1, 2, 1⟩⟩ 2
        none 1 0
      ≠ waveIndicesWithFlag ⟨[2, 4], some [1, 0]⟩ ⟨⟨2, 1, 1⟩, ⟨1, 2, 1⟩⟩ 2
          none 1 0 false := by
  refine ⟨rfl, by decide, ?_⟩
  decide

/-- C5 witness (spec scenario B: shape [4,256], 64 threads, unroll 4). -/
theorem claim_C5_witness :
    EmitIndexAndSetExitBasicBlock ⟨[4, 256], some [1, 0]⟩
        ⟨⟨1, 1, 1⟩, ⟨64, 1, 1⟩⟩ 4 none 0 3
      = waveIndicesWithFlag ⟨[4, 256], some [1, 0]⟩ ⟨⟨1, 1, 1⟩, ⟨64, 1, 1⟩⟩ 4
          none 0 3 false :=
  claim_C5_row_equiv ⟨[4, 256], some [1, 0]⟩ ⟨⟨1, 1, 1⟩, ⟨64, 1, 1⟩⟩ 4
    none 0 3 [1, 0] rfl (by decide) rfl rfl (by decide) (by decide) (by decide)

/-- C6 witness. -/
theorem claim_C6_witness :
    (EmitIndexAndSetExitBasicBlock ⟨[16], none⟩ ⟨⟨2, 1, 1⟩, ⟨2, 1, 1⟩⟩ 2
        (some 8) 1 0).length = 2 ∧
    (∀ k, k < 2 →
       (EmitIndexAndSetExitBasicBlock ⟨[16], none⟩ ⟨⟨2, 1, 1⟩, ⟨2, 1, 1⟩⟩ 2
           (some 8) 1 0)[k]?
         = some { linear := linear_index_base ⟨⟨2, 1, 1⟩, ⟨2, 1, 1⟩⟩ 2 (some 8) 1 0 + k,
                  multidim := delinearize ⟨[16], none⟩
                    (linear_index_base ⟨⟨2, 1, 1⟩, ⟨2, 1, 1⟩⟩ 2 (some 8) 1 0 + k) }) ∧
    linear_index_base ⟨⟨2, 1, 1⟩, ⟨2, 1, 1⟩⟩ 2 (some 8) 1 0
      = (1 * (⟨⟨2, 1, 1⟩, ⟨2, 1, 1⟩⟩ :
          LaunchDimensions).thread_counts_per_block.x + 0) * 2
        + (some 8 : Option Nat).getD 0 :=
  claim_C6_generic_mapper ⟨[16], none⟩ ⟨⟨2, 1, 1⟩, ⟨2, 1, 1⟩⟩ 2 (some 8) 1 0
    (by decide) (by decide)

/-- C7 counterexample: two launch geometries identical except in the y
component of the threads-per-group triple ((1,2,1) versus (1,1,1) threads,
same 2 x 1 x 1 blocks) disagree on the fast-path decision and produce
different index sequences for shape [2,4] with unroll factor 2. -/
theorem claim_C7_counterexample :
    (⟨⟨2, 1, 1⟩, ⟨1, 2, 1⟩⟩ : LaunchDimensions).block_counts
        = (⟨⟨2, 1, 1⟩, ⟨1, 1, 1⟩⟩ : LaunchDimensions).block_counts ∧
    (⟨⟨2, 1, 1⟩, ⟨1, 2, 1⟩⟩ : LaunchDimensions).thread_counts_per_block.x
        = (⟨⟨2, 1, 1⟩, ⟨1, 1, 1⟩⟩ : LaunchDimensions).thread_counts_per_block.x ∧
    (⟨⟨2, 1, 1⟩, ⟨1, 2, 1⟩⟩ : LaunchDimensions).thread_counts_per_block.z
        = (⟨⟨2, 1, 1⟩, ⟨1, 1, 1⟩⟩ : LaunchDimensions).thread_counts_per_block.z ∧
    enable_row_index ⟨[2, 4], some [1, 0]⟩ ⟨⟨2, 1, 1⟩, ⟨1, 2, 1⟩⟩ 2 = true ∧
    enable_row_index ⟨[2, 4], some [1, 0]⟩ ⟨⟨2, 1, 1⟩, ⟨1, 1, 1⟩⟩ 2 = false ∧
    emitLoopFeed ⟨[2, 4], some [1, 0]⟩ ⟨⟨2, 1, 1⟩, ⟨1, 2, 1⟩⟩ 2
      ≠ emitLoopFeed ⟨[2, 4], some [1, 0]⟩ ⟨⟨2, 1, 1⟩, ⟨1, 1, 1⟩⟩ 2 := by
  refine ⟨rfl, rfl, rfl, rfl, rfl, ?_⟩
  decide

/-- C7 witness. -/
theorem claim_C7_witness :
    emitLoopWaveOffsets ⟨[2, 4], some [1, 0]⟩ ⟨⟨2, 1, 1⟩, ⟨1, 2, 1⟩⟩ 2
        = emitLoopWaveOffsets ⟨[2, 4], some [1, 0]⟩ ⟨⟨2, 7, 3⟩, ⟨1, 2, 5⟩⟩ 2 ∧
      allFedLinears ⟨[2, 4], some [1, 0]⟩ ⟨⟨2, 1, 1⟩, ⟨1, 2, 1⟩⟩ 2
        = allFedLinears ⟨[2, 4], some [1, 0]⟩ ⟨⟨2, 7, 3⟩, ⟨1, 2, 5⟩⟩ 2 ∧
      (enable_row_index ⟨[2, 4], some [1, 0]⟩ ⟨⟨2, 1, 1⟩, ⟨1, 2, 1⟩⟩ 2
          = enable_row_index ⟨[2, 4], some [1, 0]⟩ ⟨⟨2, 7, 3⟩, ⟨1, 2, 5⟩⟩ 2 →
        emitLoopFeed ⟨[2, 4], some [1, 0]⟩ ⟨⟨2, 1, 1⟩, ⟨1, 2, 1⟩⟩ 2
          = emitLoopFeed ⟨[2, 4], some [1, 0]⟩ ⟨⟨2, 7, 3⟩, ⟨1, 2, 5⟩⟩ 2) :=
  claim_C7_x_only ⟨[2, 4], some [1, 0]⟩ ⟨⟨2, 1, 1⟩, ⟨1, 2, 1⟩⟩
    ⟨⟨2, 7, 3⟩, ⟨1, 2, 5⟩⟩ 2 rfl rfl

/-- C8 witness. -/
theorem claim_C8_witness :
    emitLoopFeed ⟨[0, 3], none⟩ ⟨⟨1, 1, 1⟩, ⟨1, 1, 1⟩⟩ 1 = [] ∧
      EmitLoop ⟨[0, 3], none⟩ ⟨⟨1, 1, 1⟩, ⟨1, 1, 1⟩⟩ 1
          (fun _ => (Except.ok () : Except Unit Unit))
        = ([], Except.ok ()) :=
  claim_C8_zero_size ⟨[0, 3], none⟩ ⟨⟨1, 1, 1⟩, ⟨1, 1, 1⟩⟩ 1
    (fun _ => (Except.ok () : Except Unit Unit)) rfl

/-- C9 witness: shape [2] with a 1 x 1 launch and unroll 1 feeds the indices
with linear values 0 and 1; a body failing on linear value 1 stops the
emission right there with the same error. -/
theorem claim_C9_witness :
    EmitLoop ⟨[2], none⟩ ⟨⟨1, 1, 1⟩, ⟨1, 1, 1⟩⟩ 1
        (fun ix => if ix.linear = 1 then (Except.error 7 : Except Nat Unit)
          else Except.ok ())
      = ([⟨0, [0]⟩, ⟨1, [1]⟩], Except.error 7) :=
  claim_C9_fail_fast ⟨[2], none⟩ ⟨⟨1, 1, 1⟩, ⟨1, 1, 1⟩⟩ 1
    (fun ix => if ix.linear = 1 then (Except.error 7 : Except Nat Unit)
      else Except.ok ())
    [⟨0, [0]⟩] ⟨1, [1]⟩ [] 7 (by decide)
    (by
      intro y hy
      rcases List.mem_singleton.mp hy with rfl
      rfl)
    rfl
